import Mathlib

/-!
Shallow embedding of the PropertyManagementLeads pipeline
(`app/main.py`, `data_pipeline/utils.py`, `data_pipeline/scrape_kijiji.py`,
`data_pipeline/kijiji_detail.py`).

Python strings are modelled as `List Char`; nullable values as `Option`.
A pandas row is modelled as a structure of `Option (List Char)` fields:
in the orchestrated pipeline every cell of the enriched frame is either a
Python `None` or a `str` (the detail frame always contains one dict per
url, so the left join never manufactures NaN cells), hence Python
truthiness of a cell is exactly "present and non-empty".

`str.lower` is modelled with the ASCII `Char.toLower`; Python `\s` and
`str.split()`/`str.strip()` whitespace is modelled with the ASCII
whitespace set.  All inputs exercised by the claims are ASCII.
-/

/-- Python truthiness of a nullable string cell: `None` and `""` are falsy. -/
def truthy : Option (List Char) → Bool
  | none => false
  | some [] => false
  | some (_ :: _) => true

/-- ASCII whitespace, modelling Python `\s` / `str.split()` / `str.strip()`
on the ASCII plane. -/
def isPySpace (c : Char) : Bool :=
  c == ' ' || c == '\t' || c == '\n' || c == '\r' || c == '\x0b' || c == '\x0c'

/-- Does `pre` occur at the head of `l`? (`str.startswith`, needle first). -/
def startsWithL : List Char → List Char → Bool
  | [], _ => true
  | _ :: _, [] => false
  | a :: as, b :: bs => a == b && startsWithL as bs

/-- Python `needle in hay` substring test. -/
def containsSub (needle : List Char) : List Char → Bool
  | [] => startsWithL needle []
  | c :: rest => startsWithL needle (c :: rest) || containsSub needle rest

/-- Value of a digit string, as computed by Python `int()` on a `\d+` match. -/
def digitsToNat (ds : List Char) : Nat :=
  ds.foldl (fun n c => n * 10 + (c.toNat - 48)) 0

/-- Accumulator-passing splitter behind `splitWs` (Python `str.split()`):
`acc` holds the reversed current word. -/
def splitWsAux (acc : List Char) : List Char → List (List Char)
  | [] => if acc.isEmpty then [] else [acc.reverse]
  | c :: rest =>
    if isPySpace c then
      if acc.isEmpty then splitWsAux [] rest
      else acc.reverse :: splitWsAux [] rest
    else splitWsAux (c :: acc) rest

/-- Python `str.split()` with no separator: split on whitespace runs,
dropping empty pieces. -/
def splitWs (l : List Char) : List (List Char) :=
  splitWsAux [] l

/-- Python space-join of a list of strings, with explicit equations. -/
def joinSpace : List (List Char) → List Char
  | [] => []
  | [w] => w
  | w :: w2 :: t => w ++ ' ' :: joinSpace (w2 :: t)

/-- Split-and-rejoin normalization applied after `str.lower`, the body of
`simple_property_key` in `app/main.py`: lower-case, then collapse
whitespace runs and trim by splitting and re-joining with single spaces. -/
def normalizeKey (l : List Char) : List Char :=
  joinSpace (splitWs (l.map Char.toLower))

/-- The enriched row consumed by `lead_score` / `simple_property_key`
(`app/main.py`): all cells nullable text. -/
structure Row where
  url : Option (List Char) := none
  title : Option (List Char) := none
  price_text : Option (List Char) := none
  location_text : Option (List Char) := none
  posted_text : Option (List Char) := none
  seller_name : Option (List Char) := none
  desc : Option (List Char) := none
  posted_iso : Option (List Char) := none
  phone_found : Option (List Char) := none
  email_found : Option (List Char) := none
  address_hint : Option (List Char) := none
  deriving DecidableEq

/-- The intent-cue table of `lead_score` (`app/main.py` lines 49-56). -/
def kwTable : List (List Char × Int) :=
  [("property management".data, 25), ("long term".data, 10),
   ("1 year lease".data, 8), ("maintenance".data, 6),
   ("credit check".data, 5), ("responsible tenant".data, 4)]

/-- Source function `lead_score` from `app/main.py`: additive 0-100 score, case-insensitive
keyword matching on `desc`, clamped with `min(score, 100)`. -/
def lead_score (row : Row) : Int :=
  let desc := (row.desc.getD []).map Char.toLower
  let score : Int :=
    (if truthy row.posted_iso then 20 else 8)
    + (if truthy row.seller_name then 8 else 0)
    + (if truthy row.address_hint then 6 else 0)
    + kwTable.foldl (fun s p => if containsSub p.1 desc then s + p.2 else s) 0
    + (if truthy row.phone_found then 30 else 0)
    + (if truthy row.email_found then 18 else 0)
  min score 100

/-- Base text `(row.get("address_hint") or row.get("location_text") or "")`:
first Python-truthy value, else the empty string. -/
def keyBase (row : Row) : List Char :=
  if truthy row.address_hint then row.address_hint.getD []
  else if truthy row.location_text then row.location_text.getD []
  else []

/-- Source function `simple_property_key` from `app/main.py`. -/
def simple_property_key (row : Row) : List Char :=
  normalizeKey (keyBase row)

/-- Modelled from the spec (the section 4.3 scoring table), for comparison
with the source `lead_score`: one addend per table line, summed. -/
def specSignalSum (row : Row) : Int :=
  (if truthy row.posted_iso then 20 else 0)
  + (if !truthy row.posted_iso then 8 else 0)
  + (if truthy row.seller_name then 8 else 0)
  + (if truthy row.address_hint then 6 else 0)
  + (if containsSub "property management".data ((row.desc.getD []).map Char.toLower) then 25 else 0)
  + (if containsSub "long term".data ((row.desc.getD []).map Char.toLower) then 10 else 0)
  + (if containsSub "1 year lease".data ((row.desc.getD []).map Char.toLower) then 8 else 0)
  + (if containsSub "maintenance".data ((row.desc.getD []).map Char.toLower) then 6 else 0)
  + (if containsSub "credit check".data ((row.desc.getD []).map Char.toLower) then 5 else 0)
  + (if containsSub "responsible tenant".data ((row.desc.getD []).map Char.toLower) then 4 else 0)
  + (if truthy row.phone_found then 30 else 0)
  + (if truthy row.email_found then 18 else 0)

/-- Boolean implication. -/
def bimp (a b : Bool) : Bool := !a || b

/-- One signal set dominates another: every signal scored by `lead_score`
that is present in `r1` is present in `r2`. -/
def signalLe (r1 r2 : Row) : Bool :=
  bimp (truthy r1.posted_iso) (truthy r2.posted_iso)
  && bimp (truthy r1.seller_name) (truthy r2.seller_name)
  && bimp (truthy r1.address_hint) (truthy r2.address_hint)
  && bimp (truthy r1.phone_found) (truthy r2.phone_found)
  && bimp (truthy r1.email_found) (truthy r2.email_found)
  && kwTable.all (fun p =>
      bimp (containsSub p.1 ((r1.desc.getD []).map Char.toLower))
           (containsSub p.1 ((r2.desc.getD []).map Char.toLower)))

/-- The scanner behind `extract_beds` (`data_pipeline/utils.py`):
`re.search(r"(\d+)\s*bed", title.lower())`.  At each position, a match
attempt takes the maximal digit run, skips the maximal whitespace run,
and requires the literal `bed`; positions are tried left to right. -/
def searchBeds : List Char → Option Nat
  | [] => none
  | c :: rest =>
    if c.isDigit then
      if startsWithL "bed".data
          (List.dropWhile isPySpace (List.dropWhile Char.isDigit (c :: rest))) then
        some (digitsToNat (List.takeWhile Char.isDigit (c :: rest)))
      else searchBeds rest
    else searchBeds rest

/-- Source function `extract_beds` from `data_pipeline/utils.py`: `None`/empty titles give
`None`, otherwise the first `(\d+)\s*bed` match of the lowered title. -/
def extract_beds (title : Option (List Char)) : Option Nat :=
  match title with
  | none => none
  | some t => if t.isEmpty then none else searchBeds (t.map Char.toLower)

/-- Modelled from the spec (section 8, amended reading), for comparison
with `extract_beds`: scan the maximal digit runs of the lowered title left
to right; the first run that is followed by optional whitespace and the
literal `bed` is returned as an integer. -/
def specBeds (l : List Char) : Option Nat :=
  match l with
  | [] => none
  | c :: rest =>
    if c.isDigit then
      if startsWithL "bed".data
          (List.dropWhile isPySpace (List.dropWhile Char.isDigit (c :: rest))) then
        some (digitsToNat (List.takeWhile Char.isDigit (c :: rest)))
      else specBeds (List.dropWhile Char.isDigit (c :: rest))
    else specBeds rest
termination_by l.length
decreasing_by
  · have h := (List.dropWhile_sublist (l := rest) Char.isDigit).length_le
    simp only [List.dropWhile_cons]
    split
    · simp only [List.length_cons]
      omega
    · simp only [List.length_cons]
      omega
  · simp

/-- The literal claim-C3 pattern: a digit immediately followed by `bed`,
with at most one single space in between, somewhere in the lowered title. -/
def digitBedClaim : List Char → Bool
  | [] => false
  | c :: rest =>
    (c.isDigit &&
      (startsWithL "bed".data rest ||
        (startsWithL [' '] rest && startsWithL "bed".data rest.tail)))
    || digitBedClaim rest

/-- Strict lexicographic order on code points, modelling Python `str <`
as used by the pandas sort on the `property_key` column. -/
def lexLt : List Char → List Char → Bool
  | [], [] => false
  | [], _ :: _ => true
  | _ :: _, [] => false
  | a :: as, b :: bs =>
    if a.toNat < b.toNat then true
    else if b.toNat < a.toNat then false
    else lexLt as bs

/-- A dedup-relevant slice of an enriched row: its `property_key`, its
`lead_score`, and the rest of the exported payload (represented by `url`). -/
structure Lead where
  pk : List Char
  sc : Int
  url : List Char
  deriving DecidableEq

/-- The comparator realised by
`sort_values(["property_key", "lead_score"], ascending=[True, False])`:
`property_key` ascending, then `lead_score` descending. -/
def leadLe (a b : Lead) : Bool :=
  if a.pk = b.pk then decide (b.sc ≤ a.sc) else lexLt a.pk b.pk

/-- Stable insertion into a sorted list: the new element goes in front of
the first element not strictly below it. -/
def insertLead (r : Lead) : List Lead → List Lead
  | [] => [r]
  | b :: l => if leadLe r b then r :: b :: l else b :: insertLead r l

/-- A stable sort by `leadLe`.  pandas sorts several columns with a stable
lexsort, and every stable sort by the same comparator produces the same
list, so insertion sort is an exact model of the sort step. -/
def sortLeads : List Lead → List Lead
  | [] => []
  | r :: rest => insertLead r (sortLeads rest)

/-- Model of `drop_duplicates` keeping the first occurrence of each key, the `seen`
set made explicit. -/
def dedupByAux {κ : Type} [DecidableEq κ] (f : Lead → κ) (seen : List κ) :
    List Lead → List Lead
  | [] => []
  | r :: rest =>
    if f r ∈ seen then dedupByAux f seen rest
    else r :: dedupByAux f (f r :: seen) rest

/-- Model of `drop_duplicates(subset=[...])`: keep the first row of each key. -/
def dedupBy {κ : Type} [DecidableEq κ] (f : Lead → κ) (l : List Lead) :
    List Lead :=
  dedupByAux f [] l

/-- The dedup step of `run_pipeline` (`app/main.py` lines 161-165):
stable-sort by (`property_key` asc, `lead_score` desc), then
`drop_duplicates(subset=["property_key"])` keeping the first row. -/
def dedupBest (l : List Lead) : List Lead :=
  dedupBy Lead.pk (sortLeads l)

/-- A deterministic backtracking matcher in continuation style: a matcher
receives the input suffix and a continuation, and yields the remainder
after the first (in the preference order of the regex engine) way of matching
that lets the continuation succeed.  This mirrors how `re` handles the
concatenations, optional pieces, character classes and counted repeats
used by `PHONE_RE` and `EMAIL_RE` in `data_pipeline/kijiji_detail.py`. -/
def Matcher : Type :=
  List Char → (List Char → Option (List Char)) → Option (List Char)

/-- Match a single character satisfying `p`. -/
def mchar (p : Char → Bool) : Matcher := fun l k =>
  match l with
  | [] => none
  | c :: r => if p c then k r else none

/-- Sequencing of matchers. -/
def mseq (x y : Matcher) : Matcher := fun l k =>
  x l (fun r => y r k)

/-- Greedy optional piece: try with the piece first, then without. -/
def mopt (x : Matcher) : Matcher := fun l k =>
  match x l k with
  | some res => some res
  | none => k l

/-- Matcher for exactly `n` characters satisfying `p` (`\d{n}` etc.). -/
def mrep (p : Char → Bool) : Nat → Matcher
  | 0 => fun l k => k l
  | n + 1 => mseq (mchar p) (mrep p n)

/-- Greedy star over a character class, with backtracking. -/
def mstar (p : Char → Bool) : Matcher := fun l k =>
  match l with
  | [] => k []
  | c :: r =>
    if p c then
      match mstar p r k with
      | some res => some res
      | none => k (c :: r)
    else k (c :: r)

/-- Greedy one-or-more repetition over a character class. -/
def mplus (p : Char → Bool) : Matcher :=
  mseq (mchar p) (mstar p)

/-- The separator class `[\s\-.]` of `PHONE_RE`. -/
def isPhoneSep (c : Char) : Bool :=
  isPySpace c || c == '-' || c == '.'

/-- Pattern `PHONE_RE = (?:\+?1[\s\-.]?)?(?:\(?\d{3}\)?)[\s\-.]?\d{3}[\s\-.]?\d{4}`
from `data_pipeline/kijiji_detail.py`. -/
def phoneM : Matcher :=
  mseq
    (mopt (mseq (mopt (mchar (· == '+')))
      (mseq (mchar (· == '1')) (mopt (mchar isPhoneSep)))))
    (mseq (mopt (mchar (· == '(')))
      (mseq (mrep Char.isDigit 3)
        (mseq (mopt (mchar (· == ')')))
          (mseq (mopt (mchar isPhoneSep))
            (mseq (mrep Char.isDigit 3)
              (mseq (mopt (mchar isPhoneSep)) (mrep Char.isDigit 4)))))))

/-- The local-part class `[A-Za-z0-9._%+\-]` of `EMAIL_RE`. -/
def isEmailLocal (c : Char) : Bool :=
  c.isAlpha || c.isDigit || c == '.' || c == '_' || c == '%' || c == '+' || c == '-'

/-- The domain class `[A-Za-z0-9.\-]` of `EMAIL_RE`. -/
def isEmailDomain (c : Char) : Bool :=
  c.isAlpha || c.isDigit || c == '.' || c == '-'

/-- Pattern `EMAIL_RE = [A-Za-z0-9._%+\-]+@[A-Za-z0-9.\-]+\.[A-Za-z]{2,}`
from `data_pipeline/kijiji_detail.py`. -/
def emailM : Matcher :=
  mseq (mplus isEmailLocal)
    (mseq (mchar (· == '@'))
      (mseq (mplus isEmailDomain)
        (mseq (mchar (· == '.'))
          (mseq (mchar Char.isAlpha) (mseq (mchar Char.isAlpha) (mstar Char.isAlpha))))))

/-- The `m.group(0)` text of an anchored match attempt at the head of `l`:
the consumed prefix, or `none` when the attempt fails. -/
def matchedStr (x : Matcher) (l : List Char) : Option (List Char) :=
  match x l some with
  | some rest => some (l.take (l.length - rest.length))
  | none => none

/-- Model of `re.search`: try positions left to right and return the
match found at the first position that admits one. -/
def searchFrom (x : Matcher) : List Char → Option (List Char)
  | [] => matchedStr x []
  | c :: r =>
    match matchedStr x (c :: r) with
    | some s => some s
    | none => searchFrom x r

/-- The haystack built by `scrape_detail`
(`data_pipeline/kijiji_detail.py` line 146):
`" ".join([t for t in [desc, seller_name, address_hint] if t])`. -/
def contactHaystack (desc seller addr : Option (List Char)) : List Char :=
  joinSpace (([desc, seller, addr].filter truthy).map (fun o => o.getD []))

/-- The contact-discovery tail of `scrape_detail`
(`data_pipeline/kijiji_detail.py` lines 145-153): on a truthy haystack,
the first `PHONE_RE` match and the first `EMAIL_RE` match, else `None`s. -/
def contact_discovery (desc seller addr : Option (List Char)) :
    Option (List Char) × Option (List Char) :=
  let haystack := contactHaystack desc seller addr
  if haystack.isEmpty then (none, none)
  else (searchFrom phoneM haystack, searchFrom emailM haystack)

/-- One step of `re.sub(r"\s+", " ", t)`: collapse every whitespace run to
a single space. -/
def collapseWs : List Char → List Char
  | [] => []
  | [c] => if isPySpace c then [' '] else [c]
  | c :: d :: rest =>
    if isPySpace c && isPySpace d then collapseWs (d :: rest)
    else (if isPySpace c then ' ' else c) :: collapseWs (d :: rest)

/-- Python `str.strip()`: drop leading and trailing whitespace. -/
def pyStrip (l : List Char) : List Char :=
  ((l.dropWhile isPySpace).reverse.dropWhile isPySpace).reverse

/-- Source function `clean` from `data_pipeline/scrape_kijiji.py` on a non-null input:
`re.sub(r"\s+", " ", t).strip()`. -/
def clean (t : List Char) : List Char :=
  pyStrip (collapseWs t)

/-- A search-results card, abstracted over the selector engine: for each
selector in the per-field priority list, the texts `getall()` returns
(for text fields) or the first value `get()` returns (for `href`). -/
structure Card where
  titleGot : List (List (List Char))
  urlGot : List (Option (List Char))
  priceGot : List (List (List Char))
  locGot : List (List (List Char))
  postedGot : List (List (List Char))
  deriving DecidableEq

/-- Source function `first_nonempty_text` from `data_pipeline/scrape_kijiji.py`: first
selector whose joined, cleaned text is truthy. -/
def first_nonempty_text : List (List (List Char)) → Option (List Char)
  | [] => none
  | got :: rest =>
    if got.isEmpty then first_nonempty_text rest
    else
      let text := clean got.flatten
      if text.isEmpty then first_nonempty_text rest else some text

/-- Source function `first_attr` from `data_pipeline/scrape_kijiji.py`: first selector
whose value is truthy and cleans to a truthy string; the cleaned value is
returned. -/
def first_attr : List (Option (List Char)) → Option (List Char)
  | [] => none
  | v :: rest =>
    match v with
    | none => first_attr rest
    | some t =>
      if t.isEmpty then first_attr rest
      else
        let c := clean t
        if c.isEmpty then first_attr rest else some c

/-- Source function `absolutize` from `data_pipeline/scrape_kijiji.py`. -/
def absolutize : Option (List Char) → Option (List Char)
  | none => none
  | some u =>
    if u.isEmpty then none
    else if startsWithL "http".data u then some u
    else some ("https://www.kijiji.ca".data ++ u)

/-- One `ListingSummary` row as assembled by `parse_search_html` (the
constant `source` tag is elided). -/
structure SummaryRow where
  url : Option (List Char)
  title : Option (List Char)
  price_text : Option (List Char)
  location_text : Option (List Char)
  posted_text : Option (List Char)
  deriving DecidableEq

/-- The per-card field extraction of `parse_search_html`. -/
def cardRow (card : Card) : SummaryRow :=
  { url := absolutize (first_attr card.urlGot)
    title := first_nonempty_text card.titleGot
    price_text := first_nonempty_text card.priceGot
    location_text := first_nonempty_text card.locGot
    posted_text := first_nonempty_text card.postedGot }

/-- The card loop of `parse_search_html`
(`data_pipeline/scrape_kijiji.py` lines 51-73), starting from the cards
the container selector matched: build each row, skipping cards whose
title and url are both null. -/
def parse_search_html (cards : List Card) : List SummaryRow :=
  cards.filterMap (fun card =>
    let row := cardRow card
    if row.title = none ∧ row.url = none then none else some row)

/-- Model of `drop_duplicates(subset=["url"])` keeping the first row of each url
value (pandas also dedups null keys, matching `Option` equality here). -/
def dedupByUrlAux (seen : List (Option (List Char))) :
    List SummaryRow → List SummaryRow
  | [] => []
  | r :: rest =>
    if r.url ∈ seen then dedupByUrlAux seen rest
    else r :: dedupByUrlAux (r.url :: seen) rest

/-- The error message of the empty-snapshot guard in
`parse_all_snapshots`. -/
def noSnapshotsMsg : List Char :=
  "No raw HTML snapshots found. Run the snapshot step first.".data

/-- Source function `parse_all_snapshots` from `data_pipeline/scrape_kijiji.py`, up to
persistence: the input is the list of snapshot card-lists in sorted file
order; zero snapshots abort with `SystemExit`, otherwise the parses are
concatenated and deduplicated by url, first occurrence kept. -/
def parse_all_snapshots (snapshots : List (List Card)) :
    Except (List Char) (List SummaryRow) :=
  if snapshots.isEmpty then Except.error noSnapshotsMsg
  else Except.ok (dedupByUrlAux [] (snapshots.flatMap parse_search_html))

/-- Every whitespace character is a real single space and is not followed
by further whitespace; in particular the last character is not whitespace. -/
def singleSpaced : List Char → Bool
  | [] => true
  | [c] => !isPySpace c
  | c :: d :: t =>
    (!isPySpace c || (c == ' ' && !isPySpace d)) && singleSpaced (d :: t)

/-- Fixture: a card with just a title and a relative url (witness input). -/
def mkCard (title url : String) : Card :=
  { titleGot := [[title.data]], urlGot := [some url.data],
    priceGot := [], locGot := [], postedGot := [] }

/-- Fixture: two snapshots whose parses share the url `/v1`
(witness input for the snapshot-level dedup). -/
def snapsEx : List (List Card) :=
  [[mkCard "T1" "/v1"], [mkCard "T1b" "/v1", mkCard "T2" "/v2"]]

/-- Fixture: leads with a score tie inside the key group `"a"`
(witness input for the dedup step). -/
def leadsEx : List Lead :=
  [{ pk := "a".data, sc := 5, url := "u1".data },
   { pk := "b".data, sc := 9, url := "u2".data },
   { pk := "a".data, sc := 9, url := "u3".data },
   { pk := "a".data, sc := 9, url := "u4".data }]

/-- Fixture: a whitespace-only address hint next to a usable location
(counterexample input for the key-selection policy). -/
def rowWsAddr : Row :=
  { address_hint := some "   ".data, location_text := some "main st".data }

/-- Fixture: a description holding two phone numbers (witness input). -/
def descTwoPhones : Option (List Char) :=
  some "call 306-555-1234 or 306.555.9999 now".data

/-- Fixture: an address hint holding two emails (witness input). -/
def addrTwoEmails : Option (List Char) :=
  some "reach me a@b.ca or c@d.org".data

/-- Fixture: a row with a weak signal set (witness input). -/
def rowSignalLo : Row :=
  { desc := some "Long term lease".data }

/-- Fixture: `rowSignalLo` plus a phone signal and one more keyword
(witness input). -/
def rowSignalHi : Row :=
  { desc := some "long term lease, credit check".data
    phone_found := some "3065551234".data }

theorem kw_foldl (d : List Char) :
    kwTable.foldl (fun s p => if containsSub p.1 d then s + p.2 else s) 0
      = (if containsSub "property management".data d then (25:Int) else 0)
      + (if containsSub "long term".data d then 10 else 0)
      + (if containsSub "1 year lease".data d then 8 else 0)
      + (if containsSub "maintenance".data d then 6 else 0)
      + (if containsSub "credit check".data d then 5 else 0)
      + (if containsSub "responsible tenant".data d then 4 else 0) := by
  simp only [kwTable, List.foldl_cons, List.foldl_nil]
  split_ifs <;> omega

theorem lead_score_eq (row : Row) :
    lead_score row = min (specSignalSum row) 100 := by
  simp only [lead_score, specSignalSum, kw_foldl]
  congr 1
  cases h : truthy row.posted_iso <;> simp [h] <;> ring

theorem if_imp_le {c1 c2 : Prop} [Decidable c1] [Decidable c2]
    (h : c1 → c2) (x : Int) (hx : 0 ≤ x) :
    (if c1 then x else 0) ≤ (if c2 then x else 0) := by
  split
  · next hc => rw [if_pos (h hc)]
  · split
    · exact hx
    · exact le_refl 0

theorem posted_pair_le {b1 b2 : Bool} (h : b1 = true → b2 = true) :
    ((if b1 = true then (20:Int) else 0) + (if (!b1) = true then 8 else 0))
      ≤ ((if b2 = true then 20 else 0) + (if (!b2) = true then 8 else 0)) := by
  cases b1 <;> cases b2 <;> simp_all

theorem specSignalSum_ge_eight (row : Row) : 8 ≤ specSignalSum row := by
  have h1 : (0:Int) ≤ if containsSub "property management".data ((row.desc.getD []).map Char.toLower) then 25 else 0 := by positivity
  have h2 : (0:Int) ≤ if containsSub "long term".data ((row.desc.getD []).map Char.toLower) then 10 else 0 := by positivity
  have h3 : (0:Int) ≤ if containsSub "1 year lease".data ((row.desc.getD []).map Char.toLower) then 8 else 0 := by positivity
  have h4 : (0:Int) ≤ if containsSub "maintenance".data ((row.desc.getD []).map Char.toLower) then 6 else 0 := by positivity
  have h5 : (0:Int) ≤ if containsSub "credit check".data ((row.desc.getD []).map Char.toLower) then 5 else 0 := by positivity
  have h6 : (0:Int) ≤ if containsSub "responsible tenant".data ((row.desc.getD []).map Char.toLower) then 4 else 0 := by positivity
  have h7 : (0:Int) ≤ if truthy row.seller_name then 8 else 0 := by positivity
  have h8 : (0:Int) ≤ if truthy row.address_hint then 6 else 0 := by positivity
  have h9 : (0:Int) ≤ if truthy row.phone_found then 30 else 0 := by positivity
  have h10 : (0:Int) ≤ if truthy row.email_found then 18 else 0 := by positivity
  have h11 : (8:Int) ≤ (if truthy row.posted_iso then 20 else 0)
      + (if !truthy row.posted_iso then 8 else 0) := by
    cases h : truthy row.posted_iso <;> simp [h]
  unfold specSignalSum
  omega

/-- Claim C1: `lead_score` is a pure function whose value is the additive
sum of the signal table of the spec (case-insensitive matching, all matching
phrases counted) clamped to 100, and it always lies in [0, 100]. -/
theorem C1_lead_score_additive_clamped (row : Row) :
    lead_score row = min (specSignalSum row) 100
    ∧ 0 ≤ lead_score row ∧ lead_score row ≤ 100 := by
  refine ⟨lead_score_eq row, ?_, ?_⟩
  · rw [lead_score_eq]
    have := specSignalSum_ge_eight row
    exact le_min (by omega) (by norm_num)
  · rw [lead_score_eq]
    exact min_le_right _ _

/-- Claim C10: the score never drops below 8: the absent-`posted_iso`
branch contributes a base of +8, so `lead_score` lies in [8, 100] and
values below 8 are unattainable. -/
theorem C10_lead_score_at_least_eight (row : Row) :
    8 ≤ lead_score row ∧ lead_score row ≤ 100 := by
  rw [lead_score_eq]
  exact ⟨le_min (specSignalSum_ge_eight row) (by norm_num), min_le_right _ _⟩

/-- Claim C8: adding qualifying signals never lowers the score. -/
theorem C8_lead_score_monotone (r1 r2 : Row) (h : signalLe r1 r2 = true) :
    lead_score r1 ≤ lead_score r2 := by
  simp only [signalLe, Bool.and_eq_true, List.all_eq_true, bimp,
    Bool.or_eq_true, Bool.not_eq_true'] at h
  obtain ⟨⟨⟨⟨⟨hp, hs⟩, ha⟩, hph⟩, hem⟩, hkw⟩ := h
  have himp : ∀ b1 b2 : Bool, (b1 = false ∨ b2 = true) → (b1 = true → b2 = true) := by
    intro b1 b2 hb h1
    rcases hb with hb | hb
    · rw [h1] at hb
      exact absurd hb (by simp)
    · exact hb
  have k1 := himp _ _ (hkw ("property management".data, 25) (by simp [kwTable]))
  have k2 := himp _ _ (hkw ("long term".data, 10) (by simp [kwTable]))
  have k3 := himp _ _ (hkw ("1 year lease".data, 8) (by simp [kwTable]))
  have k4 := himp _ _ (hkw ("maintenance".data, 6) (by simp [kwTable]))
  have k5 := himp _ _ (hkw ("credit check".data, 5) (by simp [kwTable]))
  have k6 := himp _ _ (hkw ("responsible tenant".data, 4) (by simp [kwTable]))
  rw [lead_score_eq, lead_score_eq]
  refine min_le_min ?_ le_rfl
  have H1 := posted_pair_le (himp _ _ hp)
  have H2 := if_imp_le (himp _ _ hs) (8:Int) (by norm_num)
  have H3 := if_imp_le (himp _ _ ha) (6:Int) (by norm_num)
  have H4 := if_imp_le (himp _ _ hph) (30:Int) (by norm_num)
  have H5 := if_imp_le (himp _ _ hem) (18:Int) (by norm_num)
  have K1 := if_imp_le k1 (25:Int) (by norm_num)
  have K2 := if_imp_le k2 (10:Int) (by norm_num)
  have K3 := if_imp_le k3 (8:Int) (by norm_num)
  have K4 := if_imp_le k4 (6:Int) (by norm_num)
  have K5 := if_imp_le k5 (5:Int) (by norm_num)
  have K6 := if_imp_le k6 (4:Int) (by norm_num)
  unfold specSignalSum
  exact add_le_add (add_le_add (add_le_add (add_le_add (add_le_add (add_le_add
    (add_le_add (add_le_add (add_le_add (add_le_add H1 H2) H3) K1) K2) K3) K4)
    K5) K6) H4) H5

/-- Witness for C8 at a concrete pair of rows: the second row adds the
phone and a keyword signal to the first row's signals. -/
theorem C8_lead_score_monotone_witness :
    signalLe rowSignalLo rowSignalHi = true
      ∧ lead_score rowSignalLo ≤ lead_score rowSignalHi :=
  ⟨by decide, C8_lead_score_monotone _ _ (by decide)⟩

theorem searchBeds_skip (l : List Char)
    (h : startsWithL "bed".data
      (List.dropWhile isPySpace (List.dropWhile Char.isDigit l)) = false) :
    searchBeds l = searchBeds (List.dropWhile Char.isDigit l) := by
  induction l with
  | nil => rfl
  | cons c r ih =>
    by_cases hc : c.isDigit
    · rw [List.dropWhile_cons_of_pos hc] at h ⊢
      have hstep : searchBeds (c :: r) = searchBeds r := by
        simp only [searchBeds, hc, if_true]
        rw [List.dropWhile_cons_of_pos hc, if_neg (by simp [h])]
      rw [hstep]
      exact ih h
    · rw [List.dropWhile_cons_of_neg hc] at h ⊢

theorem searchBeds_eq_specBeds (l : List Char) : searchBeds l = specBeds l := by
  induction l using specBeds.induct with
  | case1 => simp [searchBeds, specBeds]
  | case2 c rest hc hbed =>
    rw [List.dropWhile_cons_of_pos hc] at hbed
    simp only [searchBeds, specBeds, hc, if_true, List.dropWhile_cons_of_pos hc]
    rw [if_pos (by simpa using hbed), if_pos (by simpa using hbed)]
  | case3 c rest hc hbed ih =>
    have hbed' : startsWithL "bed".data
        (List.dropWhile isPySpace (List.dropWhile Char.isDigit (c :: rest))) = false := by
      simpa using hbed
    simp only [searchBeds, specBeds, hc, if_true, hbed', Bool.false_eq_true, if_false]
    rw [← ih]
    rw [List.dropWhile_cons_of_pos hc] at hbed' ⊢
    exact searchBeds_skip rest hbed'
  | case4 c rest hc ih => simp [searchBeds, specBeds, hc, ih]

/-- Claim C3 counterexample: the title `"2  bed"` (two spaces) does not
contain a digit immediately followed by `bed` with at most one optional
space, so the claim predicts `null`, yet `extract_beds` returns 2; and on
`"12bed"` the claimed "that digit" is 2 while the code returns 12. -/
theorem C3_counterexample :
    digitBedClaim "2  bed".data = false
      ∧ extract_beds (some "2  bed".data) = some 2
      ∧ digitBedClaim "12bed".data = true
      ∧ extract_beds (some "12bed".data) = some 12 := by
  refine ⟨by decide, by decide, by decide, by decide⟩

/-- Claim C3 (amended): `extract_beds` returns, for the lowered title, the
integer value of the leftmost maximal digit run that is followed by
optional whitespace (any run) and the literal `bed`; on every other
title, including null and empty ones, it returns null. -/
theorem C3_extract_beds_amended (t : Option (List Char)) :
    extract_beds t = t.bind (fun s => specBeds (s.map Char.toLower)) := by
  cases t with
  | none => rfl
  | some s =>
    cases s with
    | nil => simp [extract_beds, specBeds]
    | cons c cs =>
      exact searchBeds_eq_specBeds ((c :: cs).map Char.toLower)

/-- Claim C6: `parse_search_html` emits exactly the rows of the cards
having a title or a url (in card order), and never a row whose title and
url are both null. -/
theorem parse_search_html_cons (card : Card) (rest : List Card) :
    parse_search_html (card :: rest)
      = if (cardRow card).title = none ∧ (cardRow card).url = none
        then parse_search_html rest
        else cardRow card :: parse_search_html rest := by
  by_cases hP : (cardRow card).title = none ∧ (cardRow card).url = none
  · simp only [parse_search_html, List.filterMap_cons, if_pos hP]
  · simp only [parse_search_html, List.filterMap_cons, if_neg hP]

theorem C6_parse_search_html_never_both_null (cards : List Card) :
    parse_search_html cards
        = (cards.filter
            (fun c => !decide ((cardRow c).title = none ∧ (cardRow c).url = none))).map cardRow
      ∧ (parse_search_html cards).all
          (fun r => !decide (r.title = none ∧ r.url = none)) = true := by
  constructor
  · induction cards with
    | nil => rfl
    | cons card rest ih =>
      rw [parse_search_html_cons, List.filter_cons]
      by_cases hP : (cardRow card).title = none ∧ (cardRow card).url = none
      · rw [if_pos hP, decide_eq_true hP]
        simpa using ih
      · rw [if_neg hP, decide_eq_false hP]
        simp only [Bool.not_false, if_pos trivial, List.map_cons]
        rw [ih]
  · induction cards with
    | nil => rfl
    | cons card rest ih =>
      rw [parse_search_html_cons]
      by_cases hP : (cardRow card).title = none ∧ (cardRow card).url = none
      · rw [if_pos hP]
        exact ih
      · rw [if_neg hP, List.all_cons, decide_eq_false hP]
        simpa using ih

theorem dedupByUrlAux_filter (u : Option (List Char)) (l : List SummaryRow) :
    ∀ seen : List (Option (List Char)),
      (u ∈ seen → (dedupByUrlAux seen l).filter (fun r => decide (r.url = u)) = [])
      ∧ (u ∉ seen → (dedupByUrlAux seen l).filter (fun r => decide (r.url = u))
          = (l.filter (fun r => decide (r.url = u))).take 1) := by
  induction l with
  | nil => intro seen; exact ⟨fun _ => rfl, fun _ => rfl⟩
  | cons r rest ih =>
    intro seen
    constructor
    · intro hu
      by_cases hr : r.url ∈ seen
      · simp only [dedupByUrlAux, if_pos hr]
        exact (ih seen).1 hu
      · have hne : ¬(r.url = u) := fun h => hr (h ▸ hu)
        simp only [dedupByUrlAux, if_neg hr]
        rw [List.filter_cons_of_neg (by simp [hne])]
        exact (ih (r.url :: seen)).1 (List.mem_cons_of_mem _ hu)
    · intro hu
      by_cases hr : r.url ∈ seen
      · have hne : ¬(r.url = u) := fun h => hu (h ▸ hr)
        simp only [dedupByUrlAux, if_pos hr]
        rw [List.filter_cons_of_neg (by simp [hne])]
        exact (ih seen).2 hu
      · by_cases hru : r.url = u
        · simp only [dedupByUrlAux, if_neg hr]
          rw [List.filter_cons_of_pos (by simp [hru]),
            List.filter_cons_of_pos (by simp [hru]), List.take_succ_cons, List.take_zero,
            (ih (r.url :: seen)).1 (hru ▸ List.mem_cons_self _ _)]
        · simp only [dedupByUrlAux, if_neg hr]
          rw [List.filter_cons_of_neg (by simp [hru]),
            List.filter_cons_of_neg (by simp [hru])]
          have hu2 : u ∉ r.url :: seen := by
            intro h
            rcases List.mem_cons.mp h with h | h
            · exact hru h.symm
            · exact hu h
          exact (ih (r.url :: seen)).2 hu2

/-- Claim C7: `parse_all_snapshots` fails (with the user-visible message)
exactly when there are zero snapshots; otherwise it parses each snapshot,
concatenates the summaries in order, and keeps the first occurrence of
each url value. -/
theorem C7_parse_all_snapshots (snaps : List (List Card)) :
    ((parse_all_snapshots snaps).isOk = true ↔ snaps ≠ [])
    ∧ (snaps = [] → parse_all_snapshots snaps = Except.error noSnapshotsMsg)
    ∧ (∀ rows, parse_all_snapshots snaps = Except.ok rows →
        ∀ u, rows.filter (fun r => decide (r.url = u))
          = ((snaps.flatMap parse_search_html).filter
              (fun r => decide (r.url = u))).take 1) := by
  refine ⟨?_, ?_, ?_⟩
  · cases snaps with
    | nil => simp [parse_all_snapshots, Except.isOk, Except.toBool]
    | cons s rest => simp [parse_all_snapshots, Except.isOk, Except.toBool]
  · intro h
    subst h
    rfl
  · intro rows hrows u
    cases snaps with
    | nil => exact absurd hrows (by simp [parse_all_snapshots])
    | cons s rest =>
      have : rows = dedupByUrlAux [] ((s :: rest).flatMap parse_search_html) := by
        simpa [parse_all_snapshots] using hrows.symm
      rw [this]
      exact (dedupByUrlAux_filter u _ []).2 (List.not_mem_nil u)

/-- Witness for C7 on two concrete snapshots sharing the url `/v1`:
parsing succeeds and the second `/v1` row is dropped in favour of the
first. -/
theorem C7_parse_all_snapshots_witness :
    snapsEx ≠ []
      ∧ (parse_all_snapshots snapsEx).isOk = true
      ∧ ∃ rows, parse_all_snapshots snapsEx = Except.ok rows
          ∧ rows.filter
              (fun r => decide (r.url = some "https://www.kijiji.ca/v1".data))
            = ((snapsEx.flatMap parse_search_html).filter
                (fun r => decide (r.url = some "https://www.kijiji.ca/v1".data))).take 1 := by
  refine ⟨by simp [snapsEx], (C7_parse_all_snapshots snapsEx).1.mpr (by simp [snapsEx]), ?_⟩
  obtain ⟨rows, hrows⟩ : ∃ rows, parse_all_snapshots snapsEx = Except.ok rows := ⟨_, rfl⟩
  exact ⟨rows, hrows, (C7_parse_all_snapshots snapsEx).2.2 rows hrows _⟩

theorem searchFrom_eq_none (x : Matcher) (l : List Char)
    (h : ∀ i, matchedStr x (l.drop i) = none) : searchFrom x l = none := by
  induction l with
  | nil => simpa [searchFrom] using h 0
  | cons c r ih =>
    have h0 := h 0
    simp only [List.drop_zero] at h0
    simp only [searchFrom, h0]
    exact ih (fun i => by simpa using h (i + 1))

theorem searchFrom_first (x : Matcher) (l : List Char) :
    ∀ (i : Nat) (s : List Char),
      (∀ q, q < i → matchedStr x (l.drop q) = none) →
      matchedStr x (l.drop i) = some s →
      searchFrom x l = some s := by
  induction l with
  | nil =>
    intro i s _ hmatch
    simp only [List.drop_nil] at hmatch
    simpa [searchFrom] using hmatch
  | cons c r ih =>
    intro i s hfirst hmatch
    cases i with
    | zero =>
      simp only [List.drop_zero] at hmatch
      simp [searchFrom, hmatch]
    | succ j =>
      have h0 := hfirst 0 (Nat.succ_pos j)
      simp only [List.drop_zero] at h0
      simp only [searchFrom, h0]
      exact ih j s
        (fun q hq => by simpa using hfirst (q + 1) (Nat.succ_lt_succ hq))
        (by simpa using hmatch)

theorem phoneM_nil : matchedStr phoneM [] = none := by decide

theorem emailM_nil : matchedStr emailM [] = none := by decide

/-- Claim C5: contact discovery searches the space-joined concatenation of
the truthy fields among desc, seller name and address hint; each of the
phone and email components is the match at the first matching position
(later matches are ignored), and it is null when no field is truthy or no
position matches. -/
theorem C5_contact_discovery_first_match (desc seller addr : Option (List Char)) :
    ([desc, seller, addr].filter truthy = [] →
        contact_discovery desc seller addr = (none, none))
    ∧ (∀ i s, (List.range i).all
          (fun q => (matchedStr phoneM ((contactHaystack desc seller addr).drop q)).isNone)
            = true →
        matchedStr phoneM ((contactHaystack desc seller addr).drop i) = some s →
        (contact_discovery desc seller addr).1 = some s)
    ∧ (∀ i s, (List.range i).all
          (fun q => (matchedStr emailM ((contactHaystack desc seller addr).drop q)).isNone)
            = true →
        matchedStr emailM ((contactHaystack desc seller addr).drop i) = some s →
        (contact_discovery desc seller addr).2 = some s)
    ∧ ((∀ i, matchedStr phoneM ((contactHaystack desc seller addr).drop i) = none) →
        (contact_discovery desc seller addr).1 = none)
    ∧ ((∀ i, matchedStr emailM ((contactHaystack desc seller addr).drop i) = none) →
        (contact_discovery desc seller addr).2 = none) := by
  by_cases hempty : (contactHaystack desc seller addr).isEmpty
  · have hnil : contactHaystack desc seller addr = [] := by
      simpa [List.isEmpty_iff] using hempty
    have hcd : contact_discovery desc seller addr = (none, none) := by
      simp [contact_discovery, hempty]
    refine ⟨fun _ => hcd, ?_, ?_, fun _ => by simp [hcd], fun _ => by simp [hcd]⟩
    · intro i s _ hmatch
      rw [hnil, List.drop_nil, phoneM_nil] at hmatch
      exact absurd hmatch (by simp)
    · intro i s _ hmatch
      rw [hnil, List.drop_nil, emailM_nil] at hmatch
      exact absurd hmatch (by simp)
  · have hcd : contact_discovery desc seller addr
        = (searchFrom phoneM (contactHaystack desc seller addr),
           searchFrom emailM (contactHaystack desc seller addr)) := by
      simp [contact_discovery, hempty]
    refine ⟨?_, ?_, ?_, ?_, ?_⟩
    · intro h
      exact absurd (by simp [contactHaystack, h, joinSpace]) hempty
    · intro i s hfirst hmatch
      rw [hcd]
      exact searchFrom_first phoneM _ i s
        (fun q hq => by
          have := List.all_eq_true.mp hfirst q (List.mem_range.mpr hq)
          simpa [Option.isNone_iff_eq_none] using this)
        hmatch
    · intro i s hfirst hmatch
      rw [hcd]
      exact searchFrom_first emailM _ i s
        (fun q hq => by
          have := List.all_eq_true.mp hfirst q (List.mem_range.mpr hq)
          simpa [Option.isNone_iff_eq_none] using this)
        hmatch
    · intro h
      rw [hcd]
      exact searchFrom_eq_none phoneM _ h
    · intro h
      rw [hcd]
      exact searchFrom_eq_none emailM _ h

/-- Witness for C5 on a haystack holding two phone numbers and two
emails: only the first of each is returned. -/
theorem C5_contact_discovery_witness :
    (List.range 5).all
        (fun q => (matchedStr phoneM
          ((contactHaystack descTwoPhones none addrTwoEmails).drop q)).isNone) = true
      ∧ matchedStr phoneM ((contactHaystack descTwoPhones none addrTwoEmails).drop 5)
          = some "306-555-1234".data
      ∧ matchedStr phoneM ((contactHaystack descTwoPhones none addrTwoEmails).drop 21)
          = some "306.555.9999".data
      ∧ (contact_discovery descTwoPhones none addrTwoEmails).1 = some "306-555-1234".data
      ∧ (List.range 47).all
          (fun q => (matchedStr emailM
            ((contactHaystack descTwoPhones none addrTwoEmails).drop q)).isNone) = true
      ∧ matchedStr emailM ((contactHaystack descTwoPhones none addrTwoEmails).drop 47)
          = some "a@b.ca".data
      ∧ matchedStr emailM ((contactHaystack descTwoPhones none addrTwoEmails).drop 57)
          = some "c@d.org".data
      ∧ (contact_discovery descTwoPhones none addrTwoEmails).2 = some "a@b.ca".data :=
  ⟨by decide, by decide, by decide,
   (C5_contact_discovery_first_match descTwoPhones none addrTwoEmails).2.1 5
     "306-555-1234".data (by decide) (by decide),
   by decide, by decide, by decide,
   (C5_contact_discovery_first_match descTwoPhones none addrTwoEmails).2.2.1 47
     "a@b.ca".data (by decide) (by decide)⟩

theorem charOfNat_toNat (m : Nat) (hm : m < 55296) : (Char.ofNat m).toNat = m := by
  unfold Char.ofNat
  rw [dif_pos (Or.inl hm)]
  rfl

theorem toLower_toLower (c : Char) : c.toLower.toLower = c.toLower := by
  by_cases h : c.toNat ≥ 65 ∧ c.toNat ≤ 90
  · have h1 : c.toLower = Char.ofNat (c.toNat + 32) := by
      simp only [Char.toLower, if_pos h]
    have h2 : (Char.ofNat (c.toNat + 32)).toNat = c.toNat + 32 :=
      charOfNat_toNat _ (by omega)
    rw [h1]
    simp only [Char.toLower, h2]
    rw [if_neg (by omega)]
  · have h1 : c.toLower = c := by
      simp only [Char.toLower, if_neg h]
    rw [h1, h1]

theorem toLower_space : Char.toLower ' ' = ' ' := by decide

theorem listMapFix {f : Char → Char} : ∀ {l : List Char}, (∀ c ∈ l, f c = c) → l.map f = l
  | [], _ => rfl
  | c :: rest, h => by
    rw [List.map_cons, h c (List.mem_cons_self c rest),
      listMapFix (fun d hd => h d (List.mem_cons_of_mem c hd))]

theorem splitWsAux_words (l : List Char) :
    ∀ acc, acc.all (fun c => !isPySpace c) = true →
      ∀ w ∈ splitWsAux acc l, w ≠ [] ∧ w.all (fun c => !isPySpace c) = true := by
  induction l with
  | nil =>
    intro acc hacc w hw
    simp only [splitWsAux] at hw
    rcases hacc2 : acc.isEmpty with _ | _
    · rw [if_neg (by simp [hacc2])] at hw
      rcases List.mem_singleton.mp hw with rfl
      refine ⟨?_, by simpa using hacc⟩
      have : acc ≠ [] := by simpa [List.isEmpty_iff] using hacc2
      simpa using this
    · rw [if_pos (by simp [hacc2])] at hw
      exact absurd hw (List.not_mem_nil w)
  | cons c rest ih =>
    intro acc hacc w hw
    simp only [splitWsAux] at hw
    by_cases hc : isPySpace c
    · rw [if_pos hc] at hw
      by_cases hacc2 : acc.isEmpty
      · rw [if_pos hacc2] at hw
        exact ih [] rfl w hw
      · rw [if_neg hacc2] at hw
        rcases List.mem_cons.mp hw with rfl | hw2
        · refine ⟨?_, by simpa using hacc⟩
          have : acc ≠ [] := by simpa [List.isEmpty_iff] using hacc2
          simpa using this
        · exact ih [] rfl w hw2
    · rw [if_neg hc] at hw
      exact ih (c :: acc) (by simp [hacc, hc]) w hw

theorem splitWsAux_chars (l : List Char) :
    ∀ acc w, w ∈ splitWsAux acc l → ∀ c ∈ w, c ∈ acc ∨ c ∈ l := by
  induction l with
  | nil =>
    intro acc w hw c hc
    simp only [splitWsAux] at hw
    by_cases hacc : acc.isEmpty
    · rw [if_pos hacc] at hw
      exact absurd hw (List.not_mem_nil w)
    · rw [if_neg hacc] at hw
      rcases List.mem_singleton.mp hw with rfl
      exact Or.inl (List.mem_reverse.mp hc)
  | cons d rest ih =>
    intro acc w hw c hc
    simp only [splitWsAux] at hw
    by_cases hd : isPySpace d
    · rw [if_pos hd] at hw
      by_cases hacc : acc.isEmpty
      · rw [if_pos hacc] at hw
        rcases ih [] w hw c hc with h | h
        · exact absurd h (List.not_mem_nil c)
        · exact Or.inr (List.mem_cons_of_mem d h)
      · rw [if_neg hacc] at hw
        rcases List.mem_cons.mp hw with rfl | hw2
        · exact Or.inl (List.mem_reverse.mp hc)
        · rcases ih [] w hw2 c hc with h | h
          · exact absurd h (List.not_mem_nil c)
          · exact Or.inr (List.mem_cons_of_mem d h)
    · rw [if_neg hd] at hw
      rcases ih (d :: acc) w hw c hc with h | h
      · rcases List.mem_cons.mp h with rfl | h2
        · exact Or.inr (List.mem_cons_self c rest)
        · exact Or.inl h2
      · exact Or.inr (List.mem_cons_of_mem d h)

theorem splitWsAux_append (w : List Char) :
    w.all (fun c => !isPySpace c) = true →
    ∀ acc l, splitWsAux acc (w ++ l) = splitWsAux (w.reverse ++ acc) l := by
  induction w with
  | nil => intro _ acc l; rfl
  | cons c w' ih =>
    intro hw acc l
    have hc : isPySpace c = false := by
      have := List.all_eq_true.mp hw c (List.mem_cons_self c w')
      simpa using this
    have hw' : w'.all (fun c => !isPySpace c) = true := by
      rw [List.all_eq_true] at hw ⊢
      exact fun d hd => hw d (List.mem_cons_of_mem c hd)
    show splitWsAux acc (c :: (w' ++ l)) = _
    simp only [splitWsAux, hc, Bool.false_eq_true, if_false]
    rw [ih hw' (c :: acc) l]
    congr 1
    simp

theorem joinSpace_cons_eq_append (w : List Char) (t : List (List Char)) :
    ∃ z, joinSpace (w :: t) = w ++ z := by
  cases t with
  | nil => exact ⟨[], by simp [joinSpace]⟩
  | cons w2 t' => exact ⟨' ' :: joinSpace (w2 :: t'), rfl⟩

theorem splitWs_joinSpace (ws : List (List Char)) :
    (∀ w ∈ ws, w ≠ [] ∧ w.all (fun c => !isPySpace c) = true) →
    splitWs (joinSpace ws) = ws := by
  induction ws with
  | nil => intro _; rfl
  | cons w t ih =>
    intro h
    obtain ⟨hne, hall⟩ := h w (List.mem_cons_self w t)
    cases t with
    | nil =>
      show splitWsAux [] (joinSpace [w]) = [w]
      have : joinSpace [w] = w ++ [] := by simp [joinSpace]
      rw [this, splitWsAux_append w hall [] []]
      simp only [splitWsAux, List.append_nil]
      rw [if_neg (by simpa [List.isEmpty_iff] using hne)]
      simp
    | cons w2 t' =>
      show splitWsAux [] (joinSpace (w :: w2 :: t')) = w :: w2 :: t'
      have hj : joinSpace (w :: w2 :: t') = w ++ ' ' :: joinSpace (w2 :: t') := rfl
      rw [hj, splitWsAux_append w hall [] _]
      simp only [splitWsAux, isPySpace]
      rw [if_pos (by simp), if_neg (by simpa [List.isEmpty_iff, List.append_nil] using hne)]
      rw [List.append_nil, List.reverse_reverse]
      have := ih (fun v hv => h v (List.mem_cons_of_mem w hv))
      rw [show splitWsAux ([] : List Char) (joinSpace (w2 :: t')) = splitWs (joinSpace (w2 :: t')) from rfl,
        this]

theorem singleSpaced_cons (c : Char) (l : List Char)
    (hc : isPySpace c = false) (hl : singleSpaced l = true) :
    singleSpaced (c :: l) = true := by
  cases l with
  | nil => simp [singleSpaced, hc]
  | cons d t => simp [singleSpaced, hc, hl]

theorem singleSpaced_append_word (w : List Char) :
    w.all (fun c => !isPySpace c) = true →
    ∀ tail, singleSpaced tail = true → singleSpaced (w ++ tail) = true := by
  induction w with
  | nil => intro _ tail htail; simpa using htail
  | cons c w' ih =>
    intro hw tail htail
    have hc : isPySpace c = false := by
      have := List.all_eq_true.mp hw c (List.mem_cons_self c w')
      simpa using this
    have hw' : w'.all (fun c => !isPySpace c) = true := by
      rw [List.all_eq_true] at hw ⊢
      exact fun d hd => hw d (List.mem_cons_of_mem c hd)
    exact singleSpaced_cons c _ hc (ih hw' tail htail)

theorem singleSpaced_joinSpace (ws : List (List Char)) :
    (∀ w ∈ ws, w ≠ [] ∧ w.all (fun c => !isPySpace c) = true) →
    singleSpaced (joinSpace ws) = true := by
  induction ws with
  | nil => intro _; rfl
  | cons w t ih =>
    intro h
    obtain ⟨hne, hall⟩ := h w (List.mem_cons_self w t)
    cases t with
    | nil =>
      show singleSpaced (joinSpace [w]) = true
      have : joinSpace [w] = w ++ [] := by simp [joinSpace]
      rw [this]
      exact singleSpaced_append_word w hall [] rfl
    | cons w2 t' =>
      have hj : joinSpace (w :: w2 :: t') = w ++ ' ' :: joinSpace (w2 :: t') := rfl
      rw [hj]
      apply singleSpaced_append_word w hall
      obtain ⟨hne2, _⟩ := h w2 (List.mem_cons_of_mem w (List.mem_cons_self w2 t'))
      have hrest := ih (fun v hv => h v (List.mem_cons_of_mem w hv))
      cases hw2 : w2 with
      | nil => exact absurd hw2 hne2
      | cons d w2' =>
        have hd : isPySpace d = false := by
          have := (h w2 (List.mem_cons_of_mem w (List.mem_cons_self w2 t'))).2
          rw [hw2, List.all_eq_true] at this
          simpa using this d (List.mem_cons_self d w2')
        obtain ⟨z, hz⟩ := joinSpace_cons_eq_append (d :: w2') t'
        rw [hz]
        rw [hw2, hz] at hrest
        show singleSpaced (' ' :: d :: (w2' ++ z)) = true
        have hrest2 : singleSpaced (d :: (w2' ++ z)) = true := by simpa using hrest
        simp [singleSpaced, hd, hrest2]

theorem mem_joinSpace (ws : List (List Char)) :
    ∀ c ∈ joinSpace ws, c = ' ' ∨ ∃ w ∈ ws, c ∈ w := by
  induction ws with
  | nil => intro c hc; exact absurd hc (List.not_mem_nil c)
  | cons w t ih =>
    intro c hc
    cases t with
    | nil =>
      exact Or.inr ⟨w, List.mem_cons_self w [], by simpa [joinSpace] using hc⟩
    | cons w2 t' =>
      have hj : joinSpace (w :: w2 :: t') = w ++ ' ' :: joinSpace (w2 :: t') := rfl
      rw [hj] at hc
      rcases List.mem_append.mp hc with h | h
      · exact Or.inr ⟨w, List.mem_cons_self w _, h⟩
      · rcases List.mem_cons.mp h with rfl | h2
        · exact Or.inl rfl
        · rcases ih c h2 with h3 | ⟨v, hv, hcv⟩
          · exact Or.inl h3
          · exact Or.inr ⟨v, List.mem_cons_of_mem w hv, hcv⟩

theorem normalizeKey_lower_fix (s : List Char) :
    ∀ c ∈ normalizeKey s, Char.toLower c = c := by
  intro c hc
  rcases mem_joinSpace (splitWs (s.map Char.toLower)) c hc with rfl | ⟨w, hw, hcw⟩
  · exact toLower_space
  · have hcs : c ∈ s.map Char.toLower := by
      rcases splitWsAux_chars _ [] w hw c hcw with h | h
      · exact absurd h (List.not_mem_nil c)
      · exact h
    rcases List.mem_map.mp hcs with ⟨d, _, rfl⟩
    exact toLower_toLower d

theorem normalizeKey_idem (s : List Char) :
    normalizeKey (normalizeKey s) = normalizeKey s := by
  have hmap : (normalizeKey s).map Char.toLower = normalizeKey s :=
    listMapFix (normalizeKey_lower_fix s)
  have hwords : ∀ w ∈ splitWs (s.map Char.toLower),
      w ≠ [] ∧ w.all (fun c => !isPySpace c) = true :=
    splitWsAux_words _ [] rfl
  show joinSpace (splitWs ((normalizeKey s).map Char.toLower)) = normalizeKey s
  rw [hmap]
  show joinSpace (splitWs (joinSpace (splitWs (s.map Char.toLower)))) = _
  rw [splitWs_joinSpace _ hwords]
  rfl

theorem head_nonspace_joinSpace (ws : List (List Char)) :
    (∀ w ∈ ws, w ≠ [] ∧ w.all (fun c => !isPySpace c) = true) →
    (joinSpace ws).head?.all (fun c => !isPySpace c) = true := by
  intro h
  cases ws with
  | nil => rfl
  | cons w t =>
    obtain ⟨hne, hall⟩ := h w (List.mem_cons_self w t)
    obtain ⟨z, hz⟩ := joinSpace_cons_eq_append w t
    rw [hz]
    cases w with
    | nil => exact absurd rfl hne
    | cons d w' =>
      have hd : isPySpace d = false := by
        simpa using List.all_eq_true.mp hall d (List.mem_cons_self d w')
      simp [hd]

/-- Claim C4 counterexample: a whitespace-only `address_hint` is truthy
before normalization, so the key is the empty string instead of the
claimed fall-back to `location_text` (which would give `"main st"`). -/
theorem C4_counterexample :
    simple_property_key rowWsAddr = []
      ∧ normalizeKey "main st".data = "main st".data
      ∧ ("main st".data : List Char) ≠ [] :=
  ⟨by decide, by decide, by decide⟩

/-- Claim C4 (amended): the key prefers `address_hint` whenever it is
present and non-empty before normalization (even whitespace-only, which
then yields the empty key), falling back to `location_text` otherwise;
the chosen text is lower-cased, its whitespace runs are collapsed to
single spaces, and it carries no leading or trailing whitespace. -/
theorem C4_property_key_selection_normalization (row : Row) :
    simple_property_key row
        = (if truthy row.address_hint then normalizeKey (row.address_hint.getD [])
           else if truthy row.location_text then normalizeKey (row.location_text.getD [])
           else [])
      ∧ (simple_property_key row).all (fun c => Char.toLower c == c) = true
      ∧ singleSpaced (simple_property_key row) = true
      ∧ (simple_property_key row).head?.all (fun c => !isPySpace c) = true := by
  refine ⟨?_, ?_, ?_, ?_⟩
  · unfold simple_property_key keyBase
    split_ifs <;> rfl
  · rw [List.all_eq_true]
    intro c hc
    simpa using normalizeKey_lower_fix (keyBase row) c hc
  · exact singleSpaced_joinSpace _ (splitWsAux_words _ [] rfl)
  · exact head_nonspace_joinSpace _ (splitWsAux_words _ [] rfl)

/-- Claim C9: re-applying the key function to its own output (as the
address hint of a fresh record) is the identity. -/
theorem C9_property_key_idempotent (row : Row) :
    simple_property_key { address_hint := some (simple_property_key row) }
      = simple_property_key row := by
  cases hk : simple_property_key row with
  | nil => rfl
  | cons c cs =>
    have h1 : simple_property_key { address_hint := some (c :: cs) }
        = normalizeKey (c :: cs) := rfl
    rw [h1, ← hk]
    show normalizeKey (normalizeKey (keyBase row)) = normalizeKey (keyBase row)
    exact normalizeKey_idem _

theorem charToNat_inj {a b : Char} (h : a.toNat = b.toNat) : a = b :=
  Char.ext (UInt32.ext h)

theorem lexLt_irrefl : ∀ l : List Char, lexLt l l = false
  | [] => rfl
  | c :: rest => by
    simp only [lexLt, lt_irrefl, if_false]
    exact lexLt_irrefl rest

theorem lexLt_trans : ∀ (a b c : List Char),
    lexLt a b = true → lexLt b c = true → lexLt a c = true
  | [], [], _, hab, _ => by simp [lexLt] at hab
  | [], _ :: _, [], _, hbc => by simp [lexLt] at hbc
  | [], _ :: _, _ :: _, _, _ => by simp [lexLt]
  | _ :: _, [], _, hab, _ => by simp [lexLt] at hab
  | _ :: _, _ :: _, [], _, hbc => by simp [lexLt] at hbc
  | x :: xs, y :: ys, z :: zs, hab, hbc => by
    by_cases h1 : x.toNat < y.toNat
    · by_cases h2 : y.toNat < z.toNat
      · simp [lexLt, lt_trans h1 h2]
      · by_cases h3 : z.toNat < y.toNat
        · simp [lexLt, h2, h3] at hbc
        · have : x.toNat < z.toNat := by omega
          simp [lexLt, this]
    · by_cases h4 : y.toNat < x.toNat
      · simp [lexLt, h1, h4] at hab
      · simp only [lexLt, h1, h4, if_false] at hab
        by_cases h2 : y.toNat < z.toNat
        · have : x.toNat < z.toNat := by omega
          simp [lexLt, this]
        · by_cases h3 : z.toNat < y.toNat
          · simp [lexLt, h2, h3] at hbc
          · simp only [lexLt, h2, h3, if_false] at hbc
            have h5 : ¬ x.toNat < z.toNat := by omega
            have h6 : ¬ z.toNat < x.toNat := by omega
            simp only [lexLt, h5, h6, if_false]
            exact lexLt_trans xs ys zs hab hbc

theorem lexLt_connex : ∀ (a b : List Char), a ≠ b → lexLt a b = true ∨ lexLt b a = true
  | [], [], hne => absurd rfl hne
  | [], _ :: _, _ => Or.inl (by simp [lexLt])
  | _ :: _, [], _ => Or.inr (by simp [lexLt])
  | x :: xs, y :: ys, hne => by
    by_cases h1 : x.toNat < y.toNat
    · exact Or.inl (by simp [lexLt, h1])
    · by_cases h2 : y.toNat < x.toNat
      · exact Or.inr (by simp [lexLt, h2])
      · have hxy : x = y := charToNat_inj (by omega)
        subst hxy
        have hne2 : xs ≠ ys := fun h => hne (h ▸ rfl)
        rcases lexLt_connex xs ys hne2 with h | h
        · exact Or.inl (by simp [lexLt, h])
        · exact Or.inr (by simp [lexLt, h])

theorem leadLe_total (a b : Lead) : leadLe a b = true ∨ leadLe b a = true := by
  by_cases h : a.pk = b.pk
  · rcases le_total a.sc b.sc with hle | hle
    · exact Or.inr (by simp [leadLe, h.symm, hle])
    · exact Or.inl (by simp [leadLe, h, hle])
  · have h2 : b.pk ≠ a.pk := fun e => h e.symm
    rcases lexLt_connex a.pk b.pk h with hl | hl
    · exact Or.inl (by simp [leadLe, h, hl])
    · exact Or.inr (by simp [leadLe, h2, hl])

theorem leadLe_trans {a b c : Lead}
    (hab : leadLe a b = true) (hbc : leadLe b c = true) : leadLe a c = true := by
  by_cases h1 : a.pk = b.pk <;> by_cases h2 : b.pk = c.pk
  · simp only [leadLe, if_pos h1] at hab
    simp only [leadLe, if_pos h2] at hbc
    simp only [leadLe, if_pos (h1.trans h2)]
    simp only [decide_eq_true_eq] at *
    omega
  · simp only [leadLe, if_neg h2] at hbc
    have h3 : a.pk ≠ c.pk := fun e => h2 (h1 ▸ e)
    simp only [leadLe, if_neg h3]
    rw [h1]
    exact hbc
  · simp only [leadLe, if_neg h1] at hab
    have h3 : a.pk ≠ c.pk := fun e => h1 (e.trans h2.symm)
    simp only [leadLe, if_neg h3]
    rw [← h2]
    exact hab
  · simp only [leadLe, if_neg h1] at hab
    simp only [leadLe, if_neg h2] at hbc
    have h3 : a.pk ≠ c.pk := by
      intro e
      have h5 := lexLt_trans a.pk b.pk c.pk hab hbc
      rw [e, lexLt_irrefl] at h5
      exact absurd h5 (by simp)
    simp only [leadLe, if_neg h3]
    exact lexLt_trans a.pk b.pk c.pk hab hbc

theorem insertLead_perm (r : Lead) : ∀ l : List Lead, (insertLead r l).Perm (r :: l)
  | [] => List.Perm.refl _
  | b :: t => by
    by_cases h : leadLe r b
    · simp only [insertLead, if_pos h]
      exact List.Perm.refl _
    · simp only [insertLead, if_neg h]
      exact ((insertLead_perm r t).cons b).trans (List.Perm.swap r b t)

theorem sortLeads_perm : ∀ l : List Lead, (sortLeads l).Perm l
  | [] => List.Perm.refl _
  | r :: t => by
    simp only [sortLeads]
    exact (insertLead_perm r (sortLeads t)).trans ((sortLeads_perm t).cons r)

theorem insertLead_pairwise (r : Lead) :
    ∀ l : List Lead, l.Pairwise (fun a b => leadLe a b = true) →
      (insertLead r l).Pairwise (fun a b => leadLe a b = true)
  | [], _ => List.pairwise_cons.mpr ⟨by intro a h; exact absurd h (List.not_mem_nil a), List.Pairwise.nil⟩
  | b :: t, hl => by
    obtain ⟨hb, ht⟩ := List.pairwise_cons.mp hl
    by_cases h : leadLe r b
    · simp only [insertLead, if_pos h]
      refine List.pairwise_cons.mpr ⟨?_, hl⟩
      intro x hx
      rcases List.mem_cons.mp hx with rfl | hx2
      · exact h
      · exact leadLe_trans h (hb x hx2)
    · simp only [insertLead, if_neg h]
      refine List.pairwise_cons.mpr ⟨?_, insertLead_pairwise r t ht⟩
      intro x hx
      have hx3 := (insertLead_perm r t).mem_iff.mp hx
      rcases List.mem_cons.mp hx3 with rfl | hx4
      · rcases leadLe_total b x with h2 | h2
        · exact h2
        · exact absurd h2 h
      · exact hb x hx4

theorem sortLeads_pairwise :
    ∀ l : List Lead, (sortLeads l).Pairwise (fun a b => leadLe a b = true)
  | [] => List.Pairwise.nil
  | r :: t => insertLead_pairwise r (sortLeads t) (sortLeads_pairwise t)

theorem filter_insertLead_pos (p : Lead → Bool) (r : Lead) (hp : p r = true)
    (hall : ∀ b, p b = true → leadLe r b = true) :
    ∀ l : List Lead, (insertLead r l).filter p = r :: l.filter p
  | [] => by simp [insertLead, hp]
  | b :: t => by
    by_cases h : leadLe r b
    · simp only [insertLead, if_pos h]
      rw [List.filter_cons_of_pos hp]
    · have hpb : p b = false := by
        cases hpb2 : p b with
        | false => rfl
        | true => exact absurd (hall b hpb2) h
      simp only [insertLead, if_neg h]
      rw [List.filter_cons_of_neg (by simp [hpb]),
        filter_insertLead_pos p r hp hall t,
        List.filter_cons_of_neg (by simp [hpb])]

theorem filter_insertLead_neg (p : Lead → Bool) (r : Lead) (hp : p r = false) :
    ∀ l : List Lead, (insertLead r l).filter p = l.filter p
  | [] => by simp [insertLead, hp]
  | b :: t => by
    by_cases h : leadLe r b
    · simp only [insertLead, if_pos h]
      rw [List.filter_cons_of_neg (by simp [hp])]
    · simp only [insertLead, if_neg h]
      cases hpb : p b with
      | false =>
        rw [List.filter_cons_of_neg (by simp [hpb]),
          filter_insertLead_neg p r hp t,
          List.filter_cons_of_neg (by simp [hpb])]
      | true =>
        rw [List.filter_cons_of_pos hpb, filter_insertLead_neg p r hp t,
          List.filter_cons_of_pos hpb]

theorem filter_sortLeads_class (p : Lead → Bool)
    (hcl : ∀ a b, p a = true → p b = true → leadLe a b = true) :
    ∀ l : List Lead, (sortLeads l).filter p = l.filter p
  | [] => rfl
  | r :: t => by
    simp only [sortLeads]
    cases hp : p r with
    | true =>
      rw [filter_insertLead_pos p r hp (fun b hb => hcl r b hp hb) (sortLeads t),
        filter_sortLeads_class p hcl t, List.filter_cons_of_pos hp]
    | false =>
      rw [filter_insertLead_neg p r hp (sortLeads t),
        filter_sortLeads_class p hcl t,
        List.filter_cons_of_neg (by simp [hp])]

theorem dedupByAux_filter {κ : Type} [DecidableEq κ] (f : Lead → κ) (k : κ)
    (l : List Lead) :
    ∀ seen : List κ,
      (k ∈ seen → (dedupByAux f seen l).filter (fun r => decide (f r = k)) = [])
      ∧ (k ∉ seen → (dedupByAux f seen l).filter (fun r => decide (f r = k))
          = (l.filter (fun r => decide (f r = k))).take 1) := by
  induction l with
  | nil => intro seen; exact ⟨fun _ => rfl, fun _ => rfl⟩
  | cons r rest ih =>
    intro seen
    constructor
    · intro hu
      by_cases hr : f r ∈ seen
      · simp only [dedupByAux, if_pos hr]
        exact (ih seen).1 hu
      · have hne : ¬(f r = k) := fun h => hr (h ▸ hu)
        simp only [dedupByAux, if_neg hr]
        rw [List.filter_cons_of_neg (by simp [hne])]
        exact (ih (f r :: seen)).1 (List.mem_cons_of_mem _ hu)
    · intro hu
      by_cases hr : f r ∈ seen
      · have hne : ¬(f r = k) := fun h => hu (h ▸ hr)
        simp only [dedupByAux, if_pos hr]
        rw [List.filter_cons_of_neg (by simp [hne])]
        exact (ih seen).2 hu
      · by_cases hrk : f r = k
        · simp only [dedupByAux, if_neg hr]
          rw [List.filter_cons_of_pos (by simp [hrk]),
            List.filter_cons_of_pos (by simp [hrk]), List.take_succ_cons, List.take_zero,
            (ih (f r :: seen)).1 (hrk ▸ List.mem_cons_self _ _)]
        · simp only [dedupByAux, if_neg hr]
          rw [List.filter_cons_of_neg (by simp [hrk]),
            List.filter_cons_of_neg (by simp [hrk])]
          have hu2 : k ∉ f r :: seen := by
            intro h
            rcases List.mem_cons.mp h with h | h
            · exact hrk h.symm
            · exact hu h
          exact (ih (f r :: seen)).2 hu2

/-- Claim C2: after the dedup step, each key occurring in the input has
exactly one surviving record; its score is the maximum of its group, and among
tied records the first-encountered one in input order survives. -/
theorem C2_dedup_keeps_best (rs : List Lead) (k : List Char)
    (hk : k ∈ rs.map Lead.pk) :
    ∃ r, (dedupBest rs).filter (fun x => decide (x.pk = k)) = [r]
      ∧ r ∈ rs.filter (fun x => decide (x.pk = k))
      ∧ (∀ x ∈ rs.filter (fun x => decide (x.pk = k)), x.sc ≤ r.sc)
      ∧ (rs.filter (fun x => decide (x.pk = k) && decide (x.sc = r.sc))).head?
          = some r := by
  have hperm := sortLeads_perm rs
  have hFperm : ((sortLeads rs).filter (fun x => decide (x.pk = k))).Perm
      (rs.filter (fun x => decide (x.pk = k))) := hperm.filter _
  obtain ⟨r0, hr0, hr0k⟩ := List.mem_map.mp hk
  have hgrp : r0 ∈ rs.filter (fun x => decide (x.pk = k)) :=
    List.mem_filter.mpr ⟨hr0, by simp [hr0k]⟩
  obtain ⟨r, F', hF⟩ : ∃ r F',
      (sortLeads rs).filter (fun x => decide (x.pk = k)) = r :: F' := by
    cases hF0 : (sortLeads rs).filter (fun x => decide (x.pk = k)) with
    | nil =>
      have := hFperm.mem_iff.mpr hgrp
      rw [hF0] at this
      exact absurd this (List.not_mem_nil r0)
    | cons r F' => exact ⟨r, F', rfl⟩
  have hrmem : r ∈ (sortLeads rs).filter (fun x => decide (x.pk = k)) := by
    rw [hF]
    exact List.mem_cons_self r F'
  have hrk : r.pk = k := by
    have := (List.mem_filter.mp hrmem).2
    simpa using this
  have hFpair : (r :: F').Pairwise (fun a b => leadLe a b = true) :=
    hF ▸ List.Pairwise.sublist (List.filter_sublist _) (sortLeads_pairwise rs)
  refine ⟨r, ?_, ?_, ?_, ?_⟩
  · have hd := (dedupByAux_filter Lead.pk k (sortLeads rs) []).2 (List.not_mem_nil k)
    show (dedupByAux Lead.pk [] (sortLeads rs)).filter (fun x => decide (x.pk = k)) = [r]
    rw [hd, hF, List.take_one]
    rfl
  · exact hFperm.mem_iff.mp hrmem
  · intro x hx
    have hxF : x ∈ r :: F' := by
      rw [← hF]
      exact hFperm.mem_iff.mpr hx
    rcases List.mem_cons.mp hxF with rfl | hxF'
    · exact le_refl _
    · have hle := (List.pairwise_cons.mp hFpair).1 x hxF'
      have hxk : x.pk = k := by
        have := (List.mem_filter.mp hx).2
        simpa using this
      rw [leadLe, if_pos (by rw [hrk, hxk])] at hle
      simpa using hle
  · have hcl : ∀ a b, (decide (a.pk = k) && decide (a.sc = r.sc)) = true →
        (decide (b.pk = k) && decide (b.sc = r.sc)) = true → leadLe a b = true := by
      intro a b ha hb
      simp only [Bool.and_eq_true, decide_eq_true_eq] at ha hb
      rw [leadLe, if_pos (ha.1.trans hb.1.symm)]
      simp [ha.2, hb.2]
    have h5 := filter_sortLeads_class
      (fun x => decide (x.pk = k) && decide (x.sc = r.sc)) hcl rs
    rw [← h5]
    have h6 : (sortLeads rs).filter (fun x => decide (x.pk = k) && decide (x.sc = r.sc))
        = ((sortLeads rs).filter (fun x => decide (x.pk = k))).filter
            (fun x => decide (x.sc = r.sc)) := by
      rw [List.filter_filter]
      apply List.filter_congr
      intro x _
      rw [Bool.and_comm]
    rw [h6, hF, List.filter_cons_of_pos (by simp)]
    rfl

/-- Witness for C2 on four concrete leads: in group `"a"` the maximum
score 9 is attained twice and the earlier row (`u3`) survives. -/
theorem C2_dedup_keeps_best_witness :
    ("a".data ∈ leadsEx.map Lead.pk)
      ∧ ∃ r, (dedupBest leadsEx).filter (fun x => decide (x.pk = "a".data)) = [r]
          ∧ r ∈ leadsEx.filter (fun x => decide (x.pk = "a".data))
          ∧ (∀ x ∈ leadsEx.filter (fun x => decide (x.pk = "a".data)), x.sc ≤ r.sc)
          ∧ (leadsEx.filter
              (fun x => decide (x.pk = "a".data) && decide (x.sc = r.sc))).head?
              = some r :=
  ⟨by decide, C2_dedup_keeps_best leadsEx "a".data (by decide)⟩
